import Mathlib

set_option maxHeartbeats 1000000

/-! Shallow embedding of the scan-cache-and-watch subsystem of
neocmakelsp-fast (src/scanner/cache.rs, src/scanner/parallel.rs,
src/scanner/watcher.rs).

Paths are modelled as lists of components, mirroring std::path::PathBuf
component semantics (Path::starts_with, Path::parent and Path::extension
all operate on components / the final component). Time (std::time::Instant)
is modelled as a Nat clock passed explicitly to every operation that reads
it. The concurrent DashMap is modelled as an association list; list order
stands for the map's arbitrary iteration order. -/

/-- A filesystem path, as its list of components. -/
abbrev FsPath := List String

/-- cache.rs: `CachedEntry`. -/
structure CachedEntry where
  name : String
  is_dir : Bool
  is_hidden : Bool
  has_cmake : Bool
  extension : Option String
deriving DecidableEq, Repr

/-- cache.rs: `CachedDirectory`. -/
structure CachedDirectory where
  entries : List CachedEntry
  cached_at : Nat
deriving DecidableEq, Repr

/-- cache.rs: `DEFAULT_TTL` (5 seconds; the model's time unit is seconds). -/
def DEFAULT_TTL : Nat := 5

/-- cache.rs: `MAX_CACHE_SIZE`. -/
def MAX_CACHE_SIZE : Nat := 100

/-- cache.rs: `CachedDirectory::is_expired`, `self.cached_at.elapsed() > ttl`;
`elapsed` is `now - cached_at` (truncated: an Instant never elapses
negatively). -/
def CachedDirectory.is_expired (cd : CachedDirectory) (ttl now : Nat) : Bool :=
  now - cd.cached_at > ttl

/-- Lookup in an association-list map (DashMap::get, keyed by path). -/
def assocFind {β : Type} : List (FsPath × β) → FsPath → Option β
  | [], _ => none
  | kv :: rest, p => if kv.1 = p then some kv.2 else assocFind rest p

/-- Removal from an association-list map (DashMap::remove, keyed by path). -/
def assocRemove {β : Type} (m : List (FsPath × β)) (p : FsPath) : List (FsPath × β) :=
  m.filter (fun kv => !(kv.1 = p : Bool))

/-- Store in an association-list map (DashMap::insert: replace the binding if
the key is present, otherwise add it). -/
def assocStore {β : Type} : List (FsPath × β) → FsPath → β → List (FsPath × β)
  | [], p, v => [(p, v)]
  | kv :: rest, p, v => if kv.1 = p then (p, v) :: rest else kv :: assocStore rest p v

/-- Rust `Path::starts_with`: `FsPath.starts_with p root` holds when `root`
is a component-wise prefix of `p` (this is the component matching that makes
`/ab` not start with `/a`). -/
def FsPath.starts_with : FsPath → FsPath → Bool
  | _, [] => true
  | [], _ :: _ => false
  | a :: p, b :: root => a = b && FsPath.starts_with p root

/-- Rust `Path::parent`: the path minus its final component; none for the
empty (root) path. -/
def parentPath : FsPath → Option FsPath
  | [] => none
  | ps => some ps.dropLast

/-- cache.rs: `DirectoryCache` (the DashMap plus its TTL). -/
structure DirectoryCache where
  cache : List (FsPath × CachedDirectory)
  ttl : Nat
deriving DecidableEq, Repr

/-- cache.rs: `DirectoryCache::new`. -/
def DirectoryCache.new : DirectoryCache := ⟨[], DEFAULT_TTL⟩

/-- cache.rs: `DirectoryCache::with_ttl`. -/
def DirectoryCache.with_ttl (ttl : Nat) : DirectoryCache := ⟨[], ttl⟩

/-- Number of entries in the map (DashMap::len). -/
def DirectoryCache.len (c : DirectoryCache) : Nat := c.cache.length

/-- cache.rs: `DirectoryCache::get`. Returns the still-fresh entries, and the
cache after the call (a stale entry found during the check is removed). -/
def DirectoryCache.get (c : DirectoryCache) (now : Nat) (p : FsPath) :
    Option (List CachedEntry) × DirectoryCache :=
  match assocFind c.cache p with
  | none => (none, c)
  | some entry =>
    if entry.is_expired c.ttl now then (none, ⟨assocRemove c.cache p, c.ttl⟩)
    else (some entry.entries, c)

/-- The accumulator loop inside `evict_oldest`: fold over the map in
iteration order keeping the first key with strictly-minimal `cached_at`. -/
def oldestAcc : Option (FsPath × Nat) → List (FsPath × CachedDirectory) → Option (FsPath × Nat)
  | acc, [] => acc
  | acc, kv :: rest =>
    oldestAcc
      (match acc with
       | none => some (kv.1, kv.2.cached_at)
       | some (q, t) => if kv.2.cached_at < t then some (kv.1, kv.2.cached_at) else some (q, t))
      rest

/-- cache.rs: the scan in `DirectoryCache::evict_oldest` that picks the entry
with the oldest capture timestamp. -/
def oldestKey (m : List (FsPath × CachedDirectory)) : Option (FsPath × Nat) :=
  oldestAcc none m

/-- cache.rs: `DirectoryCache::evict_oldest`. -/
def DirectoryCache.evict_oldest (c : DirectoryCache) : DirectoryCache :=
  match oldestKey c.cache with
  | some (p, _) => ⟨assocRemove c.cache p, c.ttl⟩
  | none => c

/-- cache.rs: `DirectoryCache::insert` (evict when the map is at capacity,
then store the snapshot stamped with the current time). -/
def DirectoryCache.insert (c : DirectoryCache) (now : Nat) (p : FsPath)
    (entries : List CachedEntry) : DirectoryCache :=
  let c1 := if MAX_CACHE_SIZE ≤ c.len then c.evict_oldest else c
  ⟨assocStore c1.cache p ⟨entries, now⟩, c1.ttl⟩

/-- cache.rs: `DirectoryCache::invalidate`. -/
def DirectoryCache.invalidate (c : DirectoryCache) (p : FsPath) : DirectoryCache :=
  ⟨assocRemove c.cache p, c.ttl⟩

/-- cache.rs: `DirectoryCache::invalidate_subtree`
(`retain(|path, _| !path.starts_with(root))`). -/
def DirectoryCache.invalidate_subtree (c : DirectoryCache) (root : FsPath) : DirectoryCache :=
  ⟨c.cache.filter (fun kv => !FsPath.starts_with kv.1 root), c.ttl⟩

/-- cache.rs: `DirectoryCache::clear`. -/
def DirectoryCache.clear (c : DirectoryCache) : DirectoryCache := ⟨[], c.ttl⟩

/-- cache.rs: `DirectoryCache::cleanup_expired`. -/
def DirectoryCache.cleanup_expired (c : DirectoryCache) (now : Nat) : DirectoryCache :=
  ⟨c.cache.filter (fun kv => !kv.2.is_expired c.ttl now), c.ttl⟩

/-- cache.rs: `CacheStats`. -/
structure CacheStats where
  total : Nat
  valid : Nat
  expired : Nat
deriving DecidableEq, Repr

/-- cache.rs: `DirectoryCache::stats`. -/
def DirectoryCache.stats (c : DirectoryCache) (now : Nat) : CacheStats :=
  ⟨c.cache.length,
   (c.cache.filter (fun kv => !kv.2.is_expired c.ttl now)).length,
   (c.cache.filter (fun kv => kv.2.is_expired c.ttl now)).length⟩

/-- A filesystem node kind as the scanner distinguishes them
(`path.is_dir()` vs a plain file). -/
inductive FileKind
  | file
  | dir
deriving DecidableEq, Repr

/-- The filesystem as observed by the scanner: a finite listing of paths with
their kinds (listing order models filesystem enumeration order, used both by
`std::fs::read_dir` and the single-threaded `WalkBuilder` walk), plus the set
of paths excluded by version-control ignore rules (the `ignore` crate's
gitignore handling, library-provided and treated as given data here). -/
structure FileSystem where
  nodes : List (FsPath × FileKind)
  ignoredPaths : List FsPath
deriving DecidableEq, Repr

/-- `path.exists()`. -/
def FileSystem.pathExists (fs : FileSystem) (p : FsPath) : Bool :=
  (assocFind fs.nodes p).isSome

/-- `path.is_dir()`. -/
def FileSystem.isDirPath (fs : FileSystem) (p : FsPath) : Bool :=
  assocFind fs.nodes p = some FileKind.dir

/-- Whether gitignore-style rules exclude `p`. -/
def FileSystem.ignored (fs : FileSystem) (p : FsPath) : Bool :=
  fs.ignoredPaths.contains p

/-- The immediate children of `dir`, in filesystem enumeration order. -/
def FileSystem.childrenOf (fs : FileSystem) (dir : FsPath) : List FsPath :=
  fs.nodes.filterMap (fun kv => if parentPath kv.1 = some dir then some kv.1 else none)

/-- Rust `name.starts_with('.')` (the hidden-name test): the first character
is '.'. -/
def hiddenName (name : String) : Bool :=
  name.toList.head? = some '.'

/-- Index of the last '.' in a list of characters, if any. -/
def lastDotIdx : List Char → Option Nat
  | [] => none
  | c :: cs =>
    match lastDotIdx cs with
    | some j => some (j + 1)
    | none => if c = '.' then some 0 else none

/-- Rust `Path::extension` applied to a file name: the part after the last
'.', or none when there is no '.' at all or the only '.' begins the name
(dotfiles such as `.gitignore` have no extension). -/
def rustExtension (name : String) : Option String :=
  match lastDotIdx name.toList with
  | none => none
  | some 0 => none
  | some i => some (String.mk (name.toList.drop (i + 1)))

/-- parallel.rs: `ScanOptions`. -/
structure ScanOptions where
  dirs_only : Bool
  extensions : Option (List String)
  include_hidden : Bool
  check_cmake : Bool
  max_depth : Option Nat
  respect_gitignore : Bool
deriving DecidableEq, Repr

/-- parallel.rs: `ScanOptions::default` (`#[derive(Default)]`). -/
def ScanOptions.defaultOptions : ScanOptions :=
  ⟨false, none, false, false, none, false⟩

/-- parallel.rs: `ScanOptions::for_subdirectory`. -/
def ScanOptions.for_subdirectory : ScanOptions :=
  ⟨true, none, false, true, some 1, true⟩

/-- parallel.rs: `ScanOptions::for_include`. -/
def ScanOptions.for_include : ScanOptions :=
  ⟨false, some ["cmake"], false, false, some 1, true⟩

/-- parallel.rs: `ScanOptions::for_source_files`. -/
def ScanOptions.for_source_files : ScanOptions :=
  ⟨false,
   some ["c", "cc", "cpp", "cxx", "c++", "h", "hh", "hpp", "hxx", "h++",
         "m", "mm", "cu", "cuh", "asm", "s", "f", "f90", "f95", "for", "rc"],
   false, false, some 1, true⟩

/-- parallel.rs: `ScanOptions::for_any_file`. -/
def ScanOptions.for_any_file : ScanOptions :=
  ⟨false, none, false, false, some 1, true⟩

/-- parallel.rs: `ScanOptions::for_directory`. -/
def ScanOptions.for_directory : ScanOptions :=
  ⟨true, none, false, false, some 1, true⟩

/-- The `WalkBuilder` traversal configured in `scan_directory_internal`:
depth-first from `dir`, yielding every visited path except the root itself
(the Rust loop skips `entry.path() == dir` explicitly). `.hidden(flag)`
filtering skips hidden entries without descending into them, gitignore
filtering (when `respect_gitignore`) likewise; `remaining` is the unspent
`max_depth` budget (none = unlimited) and `fuel` is a structural recursion
bound (directory chains are finite in a finite listing). -/
def walkAux (fs : FileSystem) (o : ScanOptions) : Nat → Option Nat → FsPath → List FsPath
  | 0, _, _ => []
  | fuel + 1, remaining, dir =>
    if remaining = some 0 then []
    else
      (fs.childrenOf dir).flatMap (fun c =>
        let hid : Bool :=
          match c.getLast? with
          | some name => hiddenName name
          | none => false
        if hid && !o.include_hidden then []
        else if o.respect_gitignore && fs.ignored c then []
        else
          c :: (if fs.isDirPath c then
                  walkAux fs o fuel (Option.map (fun d => d - 1) remaining) c
                else []))

/-- The walk of `scan_directory_internal`, with enough fuel to exhaust any
directory chain in `fs`. -/
def walkPaths (fs : FileSystem) (o : ScanOptions) (dir : FsPath) : List FsPath :=
  walkAux fs o (fs.nodes.length + 1) o.max_depth dir

/-- The per-entry body of the loop in `scan_directory_internal`: produces the
`CachedEntry` pushed for a walked path, or none when a `continue` fires. -/
def mkScanEntry (fs : FileSystem) (o : ScanOptions) (path : FsPath) : Option CachedEntry :=
  match path.getLast? with
  | none => none
  | some name =>
    let is_dir := fs.isDirPath path
    let is_hidden := hiddenName name
    if is_hidden && !o.include_hidden then none
    else if o.dirs_only && !is_dir then none
    else
      let extension := rustExtension name
      let extOk : Bool :=
        match o.extensions with
        | some allowed_exts =>
          is_dir || (match extension with
                     | some ext => allowed_exts.contains ext
                     | none => false)
        | none => true
      if !extOk then none
      else
        some ⟨name, is_dir, is_hidden,
              is_dir && o.check_cmake && fs.pathExists (path ++ ["CMakeLists.txt"]),
              extension⟩

/-- parallel.rs: `scan_directory_internal`. -/
def scan_directory_internal (fs : FileSystem) (dir : FsPath) (o : ScanOptions) :
    List CachedEntry :=
  if !fs.pathExists dir || !fs.isDirPath dir then []
  else (walkPaths fs o dir).filterMap (mkScanEntry fs o)

/-- The per-entry body of the `read_dir` loop in `scan_directory_full`
(marker probing is unconditional there). -/
def mkFullEntry (fs : FileSystem) (path : FsPath) : Option CachedEntry :=
  match path.getLast? with
  | none => none
  | some name =>
    let is_dir := fs.isDirPath path
    some ⟨name, is_dir, hiddenName name,
          is_dir && fs.pathExists (path ++ ["CMakeLists.txt"]),
          rustExtension name⟩

/-- parallel.rs: `scan_directory_full` (plain depth-1 unfiltered listing). -/
def scan_directory_full (fs : FileSystem) (dir : FsPath) : List CachedEntry :=
  if !fs.pathExists dir || !fs.isDirPath dir then []
  else (fs.childrenOf dir).filterMap (mkFullEntry fs)

/-- parallel.rs: the closure passed to `.filter` in `filter_entries`. -/
def entryPasses (o : ScanOptions) (entry : CachedEntry) : Bool :=
  if entry.is_hidden && !o.include_hidden then false
  else if o.dirs_only && !entry.is_dir then false
  else
    match o.extensions, entry.is_dir with
    | some allowed_exts, false =>
      (match entry.extension with
       | some ext => allowed_exts.contains ext
       | none => false)
    | _, _ => true

/-- parallel.rs: `filter_entries`. -/
def filter_entries (entries : List CachedEntry) (o : ScanOptions) : List CachedEntry :=
  entries.filter (entryPasses o)

/-- parallel.rs: `scan_directory`, with the global `DIRECTORY_CACHE` passed
and returned explicitly. -/
def scan_directory (fs : FileSystem) (now : Nat) (dir : FsPath) (o : ScanOptions)
    (c : DirectoryCache) : List CachedEntry × DirectoryCache :=
  match c.get now dir with
  | (some cached, c1) => (filter_entries cached o, c1)
  | (none, c1) =>
    let entries := scan_directory_internal fs dir o
    let full_entries := scan_directory_full fs dir
    (entries, c1.insert now dir full_entries)

/-- notify crate: `CreateKind`. -/
inductive CreateKind
  | any
  | file
  | folder
  | other
deriving DecidableEq, Repr

/-- notify crate: `RemoveKind`. -/
inductive RemoveKind
  | any
  | file
  | folder
  | other
deriving DecidableEq, Repr

/-- notify crate: `RenameMode`. -/
inductive RenameMode
  | any
  | to
  | from_
  | both
  | other
deriving DecidableEq, Repr

/-- notify crate: `ModifyKind` (the Data/Metadata payloads are never
inspected by the watcher, so they carry no data here). -/
inductive ModifyKind
  | any
  | data
  | metadata
  | name (mode : RenameMode)
  | other
deriving DecidableEq, Repr

/-- notify crate: `EventKind` (the Access payload is never inspected). -/
inductive EventKind
  | any
  | access
  | create (k : CreateKind)
  | modify (k : ModifyKind)
  | remove (k : RemoveKind)
  | other
deriving DecidableEq, Repr

/-- notify crate: `Event` (kind plus the paths it carries). -/
structure FsEvent where
  kind : EventKind
  paths : List FsPath
deriving DecidableEq, Repr

/-- watcher.rs: the `matches!` in `handle_fs_event` deciding whether an
event kind is cache-relevant. -/
def should_invalidate (k : EventKind) : Bool :=
  match k with
  | .create .file | .create .folder => true
  | .remove .file | .remove .folder => true
  | .modify (.name .both) | .modify (.name .from_) | .modify (.name .to) => true
  | _ => false

/-- watcher.rs: the body of the `for path in event.paths` loop in
`handle_fs_event`: invalidate the path's parent (when it has one), and on
folder removal additionally invalidate the subtree rooted at the path. -/
def eventStep (kind : EventKind) (c : DirectoryCache) (path : FsPath) : DirectoryCache :=
  let c1 :=
    match parentPath path with
    | some parent => c.invalidate parent
    | none => c
  if kind = EventKind.remove RemoveKind.folder then c1.invalidate_subtree path
  else c1

/-- watcher.rs: `handle_fs_event`, with the global `DIRECTORY_CACHE` passed
and returned explicitly. -/
def handle_fs_event (event : FsEvent) (c : DirectoryCache) : DirectoryCache :=
  if !should_invalidate event.kind then c
  else event.paths.foldl (eventStep event.kind) c

/-- watcher.rs: the sender half of the watcher command channel (its contents
are irrelevant to the properties verified here). -/
inductive FileWatcherHandle
  | mk
deriving DecidableEq, Repr

/-- watcher.rs globals: the `FILE_WATCHER` OnceLock, plus whether the spawned
`run_watcher` task is still running its loop (and hence holding the command
receiver, so that sends can be delivered). -/
structure WatcherState where
  fileWatcher : Option FileWatcherHandle
  taskRunning : Bool
deriving DecidableEq, Repr

/-- watcher.rs: `init_file_watcher`. `get_or_init` stores a fresh handle and
spawns `run_watcher`; `nativeOk` says whether `RecommendedWatcher::new`
succeeds inside the spawned task — on failure `run_watcher` logs the error
and returns at once, dropping the command receiver. -/
def init_file_watcher (nativeOk : Bool) (s : WatcherState) :
    WatcherState × Option FileWatcherHandle :=
  match s.fileWatcher with
  | some h => (s, some h)
  | none => (⟨some FileWatcherHandle.mk, nativeOk⟩, some FileWatcherHandle.mk)

/-- watcher.rs: `get_file_watcher`. -/
def get_file_watcher (s : WatcherState) : Option FileWatcherHandle :=
  s.fileWatcher

/-- watcher.rs: whether a send on the command channel
(`FileWatcherHandle::{watch, unwatch, shutdown}`) is delivered; a failed
send is logged and dropped, never surfaced to the caller. -/
def command_delivered (s : WatcherState) : Bool :=
  s.taskRunning

/-- Spec side (C2): a cached key `p` is hit by one of the event's
invalidations — some carried path has parent `p`, or the event is a folder
removal and `p` lies in the subtree rooted at a carried path. -/
def invalidationHit (ev : FsEvent) (p : FsPath) : Bool :=
  ev.paths.any (fun q =>
    decide (parentPath q = some p) ||
      (decide (ev.kind = EventKind.remove RemoveKind.folder) && FsPath.starts_with p q))

/-- Spec side (C8): the same options with the extension allow-list cleared. -/
def ScanOptions.withoutExtensions (o : ScanOptions) : ScanOptions :=
  ⟨o.dirs_only, none, o.include_hidden, o.check_cmake, o.max_depth, o.respect_gitignore⟩

/-- Spec side (C8): the extension allow-list rule as the spec states it — a
directory always passes, a non-directory passes exactly when its extension is
present and in the list. -/
def extRuleOk (allowed : List String) (e : CachedEntry) : Bool :=
  e.is_dir || (match e.extension with
               | some ext => allowed.contains ext
               | none => false)

theorem assocFind_filterKeys {β : Type} (f : FsPath → Bool) (m : List (FsPath × β))
    (q : FsPath) :
    assocFind (m.filter (fun kv => f kv.1)) q = if f q then assocFind m q else none := by
  induction m with
  | nil => simp [assocFind]
  | cons kv rest ih =>
    by_cases hk : f kv.1
    · by_cases hq : kv.1 = q
      · subst hq
        simp [List.filter_cons, hk, assocFind]
      · simp [List.filter_cons, hk, assocFind, hq, ih]
    · by_cases hq : kv.1 = q
      · subst hq
        simp [List.filter_cons, hk, assocFind, ih]
      · simp [List.filter_cons, hk, assocFind, hq, ih]

theorem assocFind_remove {β : Type} (m : List (FsPath × β)) (p q : FsPath) :
    assocFind (assocRemove m p) q = if q = p then none else assocFind m q := by
  have h := assocFind_filterKeys (fun k => !(k = p : Bool)) m q
  simp only [assocRemove]
  rw [h]
  by_cases hqp : q = p <;> simp [hqp]

theorem assocFind_store {β : Type} (m : List (FsPath × β)) (p : FsPath) (v : β)
    (q : FsPath) :
    assocFind (assocStore m p v) q = if q = p then some v else assocFind m q := by
  induction m with
  | nil =>
    by_cases hqp : q = p
    · simp [assocStore, assocFind, hqp]
    · have hpq : ¬ p = q := fun h => hqp h.symm
      simp [assocStore, assocFind, hqp, hpq]
  | cons kv rest ih =>
    by_cases hkp : kv.1 = p
    · by_cases hqp : q = p
      · simp [assocStore, hkp, assocFind, hqp]
      · have hpq : ¬ p = q := fun h => hqp h.symm
        have hkq : ¬ kv.1 = q := by rw [hkp]; exact hpq
        simp [assocStore, hkp, assocFind, hqp, hpq, hkq]
    · by_cases hkq : kv.1 = q
      · have hqp : ¬ q = p := by rw [← hkq]; exact hkp
        simp [assocStore, hkp, assocFind, hkq, hqp]
      · simp [assocStore, hkp, assocFind, hkq, ih]

theorem starts_with_iff_append (p root : FsPath) :
    FsPath.starts_with p root = true ↔ ∃ rest, p = root ++ rest := by
  induction root generalizing p with
  | nil => simp [FsPath.starts_with]
  | cons b root ih =>
    cases p with
    | nil =>
      simp [FsPath.starts_with]
    | cons a p =>
      simp only [FsPath.starts_with, Bool.and_eq_true, decide_eq_true_eq, ih,
        List.cons_append, List.cons.injEq]
      constructor
      · rintro ⟨hab, rest, hrest⟩
        exact ⟨rest, hab, hrest⟩
      · rintro ⟨rest, hab, hrest⟩
        exact ⟨hab, rest, hrest⟩

/-- Claim C5: `invalidate_subtree(root)` removes exactly the keys equal to or
nested under `root` in the component-wise sense (`Path::starts_with` holds
exactly when the key extends `root` by whole components, not by string
prefix), and leaves every other key present; in particular with `/a/b` and
`/a/bc` cached, `invalidate_subtree(/a/b)` removes `/a/b` but not `/a/bc`. -/
theorem subtree_invalidation_componentwise :
    (∀ p root : FsPath, FsPath.starts_with p root = true ↔ ∃ rest, p = root ++ rest)
    ∧ (∀ (c : DirectoryCache) (root q : FsPath),
        assocFind (c.invalidate_subtree root).cache q =
          if FsPath.starts_with q root then none else assocFind c.cache q)
    ∧ (∀ cd0 cd1 : CachedDirectory,
        assocFind ((DirectoryCache.mk [(["a", "b"], cd0), (["a", "bc"], cd1)]
            DEFAULT_TTL).invalidate_subtree ["a", "b"]).cache ["a", "b"] = none
        ∧ assocFind ((DirectoryCache.mk [(["a", "b"], cd0), (["a", "bc"], cd1)]
            DEFAULT_TTL).invalidate_subtree ["a", "b"]).cache ["a", "bc"] = some cd1) := by
  refine ⟨starts_with_iff_append, ?_, ?_⟩
  · intro c root q
    have h := assocFind_filterKeys (fun k => !FsPath.starts_with k root) c.cache q
    simp only [DirectoryCache.invalidate_subtree]
    rw [h]
    by_cases hs : FsPath.starts_with q root <;> simp [hs]
  · intro cd0 cd1
    constructor <;> rfl

/-- Claim C9: filtering an already-filtered result by the same policy again
yields the identical sequence. -/
theorem filter_entries_idempotent (es : List CachedEntry) (o : ScanOptions) :
    filter_entries (filter_entries es o) o = filter_entries es o := by
  unfold filter_entries
  rw [List.filter_filter]
  simp only [Bool.and_self]

theorem evict_oldest_ttl (c : DirectoryCache) : c.evict_oldest.ttl = c.ttl := by
  unfold DirectoryCache.evict_oldest
  split <;> rfl

theorem insert_ttl (c : DirectoryCache) (now : Nat) (p : FsPath) (es : List CachedEntry) :
    (c.insert now p es).ttl = c.ttl := by
  by_cases h : MAX_CACHE_SIZE ≤ c.len <;> simp [DirectoryCache.insert, h, evict_oldest_ttl]

theorem insert_find_self (c : DirectoryCache) (now : Nat) (p : FsPath)
    (es : List CachedEntry) :
    assocFind (c.insert now p es).cache p = some ⟨es, now⟩ := by
  simp [DirectoryCache.insert, assocFind_store]

/-- Claim C6: after `insert(path, entries)` at time `t0`, `get(path)` at age
`t - t0 ≤ T` returns the inserted entries unchanged and leaves the cache
untouched; at age `> T` it returns none and, as a side effect, removes
exactly the stale key from the map (lazy expiry). -/
theorem get_ttl_expiry (c : DirectoryCache) (t0 t : Nat) (p : FsPath)
    (es : List CachedEntry) :
    (t - t0 ≤ c.ttl → (c.insert t0 p es).get t p = (some es, c.insert t0 p es))
    ∧ (c.ttl < t - t0 →
        ((c.insert t0 p es).get t p).1 = none
        ∧ assocFind ((c.insert t0 p es).get t p).2.cache p = none
        ∧ ∀ q, q ≠ p →
            assocFind ((c.insert t0 p es).get t p).2.cache q =
              assocFind (c.insert t0 p es).cache q) := by
  have hfind := insert_find_self c t0 p es
  have httl := insert_ttl c t0 p es
  constructor
  · intro hle
    have hexp : (CachedDirectory.mk es t0).is_expired (c.insert t0 p es).ttl t = false := by
      simp only [CachedDirectory.is_expired, httl, decide_eq_false_iff_not]
      omega
    simp [DirectoryCache.get, hfind, hexp]
  · intro hgt
    have hexp : (CachedDirectory.mk es t0).is_expired (c.insert t0 p es).ttl t = true := by
      simp only [CachedDirectory.is_expired, httl, decide_eq_true_eq]
      omega
    refine ⟨?_, ?_, ?_⟩
    · simp [DirectoryCache.get, hfind, hexp]
    · simp [DirectoryCache.get, hfind, hexp, assocFind_remove]
    · intro q hq
      simp [DirectoryCache.get, hfind, hexp, assocFind_remove, hq]

/-- Witness for C6 at a concrete instance: fresh read at age 3 of 5, stale
read at age 7 of 5. -/
theorem get_ttl_expiry_witness :
    (DirectoryCache.new.insert 0 ["a"] []).get 3 ["a"]
      = (some [], DirectoryCache.new.insert 0 ["a"] [])
    ∧ ((DirectoryCache.new.insert 0 ["a"] []).get 7 ["a"]).1 = none :=
  ⟨(get_ttl_expiry DirectoryCache.new 0 3 ["a"] []).1 (by decide),
   ((get_ttl_expiry DirectoryCache.new 0 7 ["a"] []).2 (by decide)).1⟩

/-- Claim C3 (amended): for every path that does not exist or is not a
directory and for every policy, a scan returns the empty sequence, provided
the Entry Cache holds no fresh snapshot for the path — `scan_directory`
consults the cache before the existence check, so a fresh hit (possibly
recorded before the directory vanished) is answered from the cache instead. -/
theorem scan_nonexistent_empty (fs : FileSystem) (now : Nat) (dir : FsPath)
    (o : ScanOptions) (c : DirectoryCache)
    (hmiss : (c.get now dir).1 = none)
    (hbad : fs.pathExists dir = false ∨ fs.isDirPath dir = false) :
    (scan_directory fs now dir o c).1 = [] := by
  have hinternal : scan_directory_internal fs dir o = [] := by
    rcases hbad with h | h <;> simp [scan_directory_internal, h]
  have hget : c.get now dir = (none, (c.get now dir).2) := by
    rw [← hmiss]
  unfold scan_directory
  rw [hget]
  simp [hinternal]

/-- Claim C3 as stated is refuted by the code: the cache is consulted before
the existence check, so with a fresh cached snapshot for `/d` a scan of the
non-existent `/d` returns that snapshot's entries, which are non-empty. -/
theorem scan_nonexistent_counterexample :
    FileSystem.pathExists ⟨[], []⟩ ["d"] = false
    ∧ (scan_directory ⟨[], []⟩ 0 ["d"] ScanOptions.defaultOptions
        ⟨[(["d"], ⟨[⟨"x", false, false, false, none⟩], 0⟩)], DEFAULT_TTL⟩).1
      = [⟨"x", false, false, false, none⟩]
    ∧ (scan_directory ⟨[], []⟩ 0 ["d"] ScanOptions.defaultOptions
        ⟨[(["d"], ⟨[⟨"x", false, false, false, none⟩], 0⟩)], DEFAULT_TTL⟩).1 ≠ [] := by
  refine ⟨rfl, rfl, ?_⟩
  decide

/-- Witness for C3 (amended) at a concrete miss on an empty filesystem. -/
theorem scan_nonexistent_empty_witness :
    (scan_directory ⟨[], []⟩ 0 ["d"] ScanOptions.for_any_file DirectoryCache.new).1 = [] :=
  scan_nonexistent_empty ⟨[], []⟩ 0 ["d"] ScanOptions.for_any_file DirectoryCache.new
    (by decide) (Or.inl (by decide))

/-- Claim C4 as stated is refuted by the code: `init_file_watcher` stores the
handle in the FILE_WATCHER OnceLock before the spawned task attempts native
watcher construction, so after a failed construction `get_file_watcher`
still returns the handle, not nothing. -/
theorem watcher_failure_counterexample :
    get_file_watcher (init_file_watcher false ⟨none, false⟩).1 = some FileWatcherHandle.mk
    ∧ get_file_watcher (init_file_watcher false ⟨none, false⟩).1 ≠ none := by
  refine ⟨rfl, ?_⟩
  decide

/-- Claim C4 (amended): native watcher construction failure is fatal to the
watcher's background task only: the task stops, so commands sent through the
handle are no longer delivered (logged and dropped), but the handle
registered by `init_file_watcher` remains, and `get_file_watcher` — and any
later `init_file_watcher` call — keeps returning it; callers observe a
degraded watcher that accepts and ignores commands, not a crash. -/
theorem watcher_construction_failure (s : WatcherState) (h : s.fileWatcher = none) :
    (init_file_watcher false s).2 = some FileWatcherHandle.mk
    ∧ get_file_watcher (init_file_watcher false s).1 = some FileWatcherHandle.mk
    ∧ command_delivered (init_file_watcher false s).1 = false
    ∧ ∀ ok : Bool,
        get_file_watcher (init_file_watcher ok (init_file_watcher false s).1).1 =
          some FileWatcherHandle.mk := by
  simp [init_file_watcher, get_file_watcher, command_delivered, h]

/-- Witness for C4 (amended) at a concrete uninitialized state. -/
theorem watcher_construction_failure_witness :
    get_file_watcher (init_file_watcher false ⟨none, true⟩).1 = some FileWatcherHandle.mk :=
  (watcher_construction_failure ⟨none, true⟩ rfl).2.1

theorem invalidate_subtree_lookup (c : DirectoryCache) (root p : FsPath) :
    assocFind (c.invalidate_subtree root).cache p =
      if FsPath.starts_with p root then none else assocFind c.cache p := by
  have h := assocFind_filterKeys (fun k => !FsPath.starts_with k root) c.cache p
  simp only [DirectoryCache.invalidate_subtree]
  rw [h]
  by_cases hs : FsPath.starts_with p root <;> simp [hs]

theorem invalidate_lookup (c : DirectoryCache) (r p : FsPath) :
    assocFind (c.invalidate r).cache p = if p = r then none else assocFind c.cache p := by
  simp [DirectoryCache.invalidate, assocFind_remove]

theorem eventStep_lookup (kind : EventKind) (c : DirectoryCache) (path p : FsPath) :
    assocFind (eventStep kind c path).cache p =
      if decide (parentPath path = some p)
          || (decide (kind = EventKind.remove RemoveKind.folder)
              && FsPath.starts_with p path) then none
      else assocFind c.cache p := by
  unfold eventStep
  cases hpar : parentPath path with
  | none =>
    by_cases hk : kind = EventKind.remove RemoveKind.folder
    · by_cases hs : FsPath.starts_with p path <;>
        simp [hk, hs, invalidate_subtree_lookup]
    · simp [hk]
  | some parent =>
    by_cases hk : kind = EventKind.remove RemoveKind.folder
    · by_cases hs : FsPath.starts_with p path
      · simp [hk, hs, invalidate_subtree_lookup]
      · by_cases hpp : p = parent
        · simp [hk, hs, invalidate_subtree_lookup, invalidate_lookup, hpp]
        · have hppr : ¬ parent = p := fun h => hpp h.symm
          simp [hk, hs, invalidate_subtree_lookup, invalidate_lookup, hpp, hppr]
    · by_cases hpp : p = parent
      · simp [hk, invalidate_lookup, hpp]
      · have hppr : ¬ parent = p := fun h => hpp h.symm
        simp [hk, invalidate_lookup, hpp, hppr]

theorem foldl_eventStep_lookup (kind : EventKind) (paths : List FsPath)
    (c : DirectoryCache) (p : FsPath) :
    assocFind (paths.foldl (eventStep kind) c).cache p =
      if paths.any (fun q =>
          decide (parentPath q = some p)
          || (decide (kind = EventKind.remove RemoveKind.folder)
              && FsPath.starts_with p q)) then none
      else assocFind c.cache p := by
  induction paths generalizing c with
  | nil => simp
  | cons q qs ih =>
    simp only [List.foldl_cons, List.any_cons]
    rw [ih, eventStep_lookup]
    by_cases hq : (decide (parentPath q = some p)
        || (decide (kind = EventKind.remove RemoveKind.folder)
            && FsPath.starts_with p q)) = true <;>
      by_cases hqs : (qs.any (fun q =>
          decide (parentPath q = some p)
          || (decide (kind = EventKind.remove RemoveKind.folder)
              && FsPath.starts_with p q))) = true <;>
      simp [hq, hqs]

/-- Claim C2: an event whose kind is not one of file create, folder create,
file remove, folder remove, or rename (from, to, or both) — in particular a
pure content modification — leaves the cache completely unchanged; for an
event of one of those kinds, exactly the keys hit by an invalidation are
removed (the parent of some carried path, plus, when the kind is folder
removal, every key in the subtree rooted at a carried path) and every other
key keeps its binding. -/
theorem watcher_event_invalidation (ev : FsEvent) (c : DirectoryCache) :
    (should_invalidate ev.kind = false → handle_fs_event ev c = c)
    ∧ ∀ p : FsPath,
        assocFind (handle_fs_event ev c).cache p =
          if should_invalidate ev.kind && invalidationHit ev p then none
          else assocFind c.cache p := by
  constructor
  · intro h
    simp [handle_fs_event, h]
  · intro p
    by_cases h : should_invalidate ev.kind
    · simp only [handle_fs_event, h, Bool.not_true, Bool.false_eq_true, if_false]
      rw [foldl_eventStep_lookup]
      simp [invalidationHit, h]
    · simp [handle_fs_event, h, invalidationHit]

/-- Witness for C2: a pure content-modification event leaves a concrete
cache unchanged, and a file-creation event removes exactly the parent key. -/
theorem watcher_event_invalidation_witness :
    handle_fs_event ⟨EventKind.modify ModifyKind.data, [["p", "x.txt"]]⟩
        ⟨[(["p"], ⟨[], 0⟩)], DEFAULT_TTL⟩
      = ⟨[(["p"], ⟨[], 0⟩)], DEFAULT_TTL⟩
    ∧ assocFind (handle_fs_event ⟨EventKind.create CreateKind.file, [["p", "x.txt"]]⟩
        ⟨[(["p"], ⟨[], 0⟩)], DEFAULT_TTL⟩).cache ["p"] = none :=
  ⟨(watcher_event_invalidation ⟨EventKind.modify ModifyKind.data, [["p", "x.txt"]]⟩
      ⟨[(["p"], ⟨[], 0⟩)], DEFAULT_TTL⟩).1 rfl,
   by
    rw [(watcher_event_invalidation ⟨EventKind.create CreateKind.file, [["p", "x.txt"]]⟩
      ⟨[(["p"], ⟨[], 0⟩)], DEFAULT_TTL⟩).2 ["p"]]
    decide⟩

theorem get_snd_ttl (c : DirectoryCache) (now : Nat) (p : FsPath) :
    ((c.get now p).2).ttl = c.ttl := by
  cases hf : assocFind c.cache p with
  | none => simp [DirectoryCache.get, hf]
  | some e =>
    by_cases h : e.is_expired c.ttl now <;> simp [DirectoryCache.get, hf, h]

/-- Claim C10: on a cache miss, `scan_directory` unconditionally inserts a
snapshot for the queried path — the `scan_directory_full` listing, which is
empty when the path does not exist — and a subsequent scan of that path
within the TTL is answered from that cached snapshot without consulting the
filesystem, whatever the filesystem has become in the meantime. -/
theorem scan_miss_populates_cache (fs : FileSystem) (now : Nat) (dir : FsPath)
    (o : ScanOptions) (c : DirectoryCache)
    (hmiss : (c.get now dir).1 = none) :
    assocFind (scan_directory fs now dir o c).2.cache dir
      = some ⟨scan_directory_full fs dir, now⟩
    ∧ (fs.pathExists dir = false → scan_directory_full fs dir = [])
    ∧ ∀ (fs2 : FileSystem) (now2 : Nat) (o2 : ScanOptions),
        now2 - now ≤ c.ttl →
          scan_directory fs2 now2 dir o2 (scan_directory fs now dir o c).2
            = (filter_entries (scan_directory_full fs dir) o2,
               (scan_directory fs now dir o c).2) := by
  have hget : c.get now dir = (none, (c.get now dir).2) := by
    rw [← hmiss]
  have h2 : (scan_directory fs now dir o c).2
      = ((c.get now dir).2).insert now dir (scan_directory_full fs dir) := by
    unfold scan_directory
    rw [hget]
  have hlook : assocFind (scan_directory fs now dir o c).2.cache dir
      = some ⟨scan_directory_full fs dir, now⟩ := by
    rw [h2]
    exact insert_find_self _ _ _ _
  refine ⟨hlook, ?_, ?_⟩
  · intro h
    simp [scan_directory_full, h]
  · intro fs2 now2 o2 httl
    have httl2 : (scan_directory fs now dir o c).2.ttl = c.ttl := by
      rw [h2, insert_ttl, get_snd_ttl]
    have hexp : (CachedDirectory.mk (scan_directory_full fs dir) now).is_expired
        (scan_directory fs now dir o c).2.ttl now2 = false := by
      simp only [CachedDirectory.is_expired, httl2, decide_eq_false_iff_not]
      omega
    have hget2 : (scan_directory fs now dir o c).2.get now2 dir
        = (some (scan_directory_full fs dir), (scan_directory fs now dir o c).2) := by
      simp [DirectoryCache.get, hlook, hexp]
    set c2 := (scan_directory fs now dir o c).2 with hc2
    unfold scan_directory
    rw [hget2]

/-- Witness for C10: a miss on an empty filesystem caches the empty snapshot
for `/d`; a scan 2 ticks later, on a filesystem where `/d` now exists and has
a child, still answers the cached empty listing. -/
theorem scan_miss_populates_cache_witness :
    assocFind (scan_directory ⟨[], []⟩ 0 ["d"] ScanOptions.for_any_file
        DirectoryCache.new).2.cache ["d"]
      = some ⟨scan_directory_full ⟨[], []⟩ ["d"], 0⟩
    ∧ scan_directory ⟨[(["d"], FileKind.dir), (["d", "y"], FileKind.file)], []⟩ 2 ["d"]
        ScanOptions.for_any_file
        (scan_directory ⟨[], []⟩ 0 ["d"] ScanOptions.for_any_file DirectoryCache.new).2
      = (filter_entries (scan_directory_full ⟨[], []⟩ ["d"]) ScanOptions.for_any_file,
         (scan_directory ⟨[], []⟩ 0 ["d"] ScanOptions.for_any_file DirectoryCache.new).2) :=
  ⟨(scan_miss_populates_cache ⟨[], []⟩ 0 ["d"] ScanOptions.for_any_file DirectoryCache.new
      (by decide)).1,
   (scan_miss_populates_cache ⟨[], []⟩ 0 ["d"] ScanOptions.for_any_file DirectoryCache.new
      (by decide)).2.2 ⟨[(["d"], FileKind.dir), (["d", "y"], FileKind.file)], []⟩ 2
      ScanOptions.for_any_file (by decide)⟩

theorem mkScanEntry_extension (fs : FileSystem) (o : ScanOptions) (path : FsPath)
    (e : CachedEntry) (h : mkScanEntry fs o path = some e) :
    e.extension = rustExtension e.name := by
  unfold mkScanEntry at h
  cases hl : path.getLast? with
  | none =>
    rw [hl] at h
    exact absurd h (by simp)
  | some name =>
    rw [hl] at h
    dsimp only at h
    split at h
    · exact absurd h (by simp)
    · split at h
      · exact absurd h (by simp)
      · split at h
        · exact absurd h (by simp)
        · cases h
          rfl

theorem mkFullEntry_extension (fs : FileSystem) (path : FsPath)
    (e : CachedEntry) (h : mkFullEntry fs path = some e) :
    e.extension = rustExtension e.name := by
  unfold mkFullEntry at h
  cases hl : path.getLast? with
  | none =>
    rw [hl] at h
    exact absurd h (by simp)
  | some name =>
    rw [hl] at h
    dsimp only at h
    cases h
    rfl

/-- Claim C7 (amended): every CacheEntry produced by the scanner — by the
direct filtered walk and by the full listing that populates the cache —
carries as `extension` exactly `Path::extension` of its name, verbatim: it is
not lowercased, it is present for any name containing an extension
(directories included), and it is absent exactly for extensionless names. -/
theorem scanner_extension_verbatim (fs : FileSystem) (dir : FsPath) (o : ScanOptions) :
    (∀ e ∈ scan_directory_internal fs dir o, e.extension = rustExtension e.name)
    ∧ (∀ e ∈ scan_directory_full fs dir, e.extension = rustExtension e.name) := by
  constructor
  · intro e he
    unfold scan_directory_internal at he
    split at he
    · simp at he
    · obtain ⟨a, _, ha⟩ := List.mem_filterMap.mp he
      exact mkScanEntry_extension fs o a e ha
  · intro e he
    unfold scan_directory_full at he
    split at he
    · simp at he
    · obtain ⟨a, _, ha⟩ := List.mem_filterMap.mp he
      exact mkFullEntry_extension fs a e ha

/-- Claim C7 as stated is refuted by the code: extensions are not lowercased
(file `a.CPP` yields extension `CPP`, which contains no lowercase letters)
and are not absent for directory entries (directory `v1.2` yields `2`). -/
theorem scanner_extension_counterexample :
    scan_directory_full
        ⟨[(["d"], FileKind.dir), (["d", "a.CPP"], FileKind.file),
          (["d", "v1.2"], FileKind.dir)], []⟩ ["d"]
      = [⟨"a.CPP", false, false, false, some "CPP"⟩,
         ⟨"v1.2", true, false, false, some "2"⟩]
    ∧ ("CPP".toList.all Char.isLower) = false
    ∧ (⟨"v1.2", true, false, false, some "2"⟩ : CachedEntry).is_dir = true
    ∧ (⟨"v1.2", true, false, false, some "2"⟩ : CachedEntry).extension ≠ none := by
  refine ⟨rfl, by decide, rfl, by decide⟩

theorem assocFind_isSome_of_mem {β : Type} {m : List (FsPath × β)} {kv : FsPath × β}
    (h : kv ∈ m) : (assocFind m kv.1).isSome = true := by
  induction m with
  | nil => cases h
  | cons a rest ih =>
    rcases List.mem_cons.mp h with h | h
    · subst h
      simp [assocFind]
    · by_cases ha : a.1 = kv.1
      · simp [assocFind, ha]
      · simp [assocFind, ha, ih h]

theorem oldestAcc_some_isSome (m : List (FsPath × CachedDirectory)) :
    ∀ x : FsPath × Nat, (oldestAcc (some x) m).isSome = true := by
  induction m with
  | nil => intro x; rfl
  | cons kv rest ih =>
    intro x
    rcases x with ⟨q, t⟩
    simp only [oldestAcc]
    by_cases hc : kv.2.cached_at < t <;> simp [hc, ih]

theorem oldestKey_isSome (m : List (FsPath × CachedDirectory)) (h : m ≠ []) :
    (oldestKey m).isSome = true := by
  cases m with
  | nil => exact absurd rfl h
  | cons kv rest =>
    unfold oldestKey
    simp only [oldestAcc]
    exact oldestAcc_some_isSome rest _

theorem oldestAcc_spec (m : List (FsPath × CachedDirectory)) :
    ∀ (acc : Option (FsPath × Nat)) (q : FsPath) (t : Nat),
      oldestAcc acc m = some (q, t) →
        (acc = some (q, t) ∨ ∃ kv, kv ∈ m ∧ kv.1 = q ∧ kv.2.cached_at = t)
        ∧ (∀ kv ∈ m, t ≤ kv.2.cached_at)
        ∧ (∀ q0 t0, acc = some (q0, t0) → t ≤ t0) := by
  induction m with
  | nil =>
    intro acc q t h
    simp only [oldestAcc] at h
    refine ⟨Or.inl h, by simp, ?_⟩
    intro q0 t0 h0
    rw [h0] at h
    simp at h
    omega
  | cons kv rest ih =>
    intro acc q t h
    simp only [oldestAcc] at h
    cases acc with
    | none =>
      obtain ⟨hmem, hmin, hacc⟩ := ih _ q t h
      have htkv : t ≤ kv.2.cached_at := hacc kv.1 kv.2.cached_at rfl
      refine ⟨?_, ?_, ?_⟩
      · rcases hmem with h0 | ⟨kv', hkm, hk1, hk2⟩
        · simp at h0
          exact Or.inr ⟨kv, List.mem_cons_self _ _, h0.1, h0.2⟩
        · exact Or.inr ⟨kv', List.mem_cons_of_mem _ hkm, hk1, hk2⟩
      · intro kv' hkv'
        rcases List.mem_cons.mp hkv' with h0 | h0
        · rw [h0]
          exact htkv
        · exact hmin kv' h0
      · intro q0 t0 h0
        simp at h0
    | some x =>
      rcases x with ⟨q0, t0⟩
      dsimp only at h
      by_cases hlt : kv.2.cached_at < t0
      · rw [if_pos hlt] at h
        obtain ⟨hmem, hmin, hacc⟩ := ih _ q t h
        have htkv : t ≤ kv.2.cached_at := hacc kv.1 kv.2.cached_at rfl
        refine ⟨?_, ?_, ?_⟩
        · rcases hmem with h0 | ⟨kv', hkm, hk1, hk2⟩
          · simp at h0
            exact Or.inr ⟨kv, List.mem_cons_self _ _, h0.1, h0.2⟩
          · exact Or.inr ⟨kv', List.mem_cons_of_mem _ hkm, hk1, hk2⟩
        · intro kv' hkv'
          rcases List.mem_cons.mp hkv' with h0 | h0
          · rw [h0]
            exact htkv
          · exact hmin kv' h0
        · intro q1 t1 h1
          simp at h1
          omega
      · rw [if_neg hlt] at h
        obtain ⟨hmem, hmin, hacc⟩ := ih _ q t h
        have ht0 : t ≤ t0 := hacc q0 t0 rfl
        refine ⟨?_, ?_, ?_⟩
        · rcases hmem with h0 | ⟨kv', hkm, hk1, hk2⟩
          · exact Or.inl h0
          · exact Or.inr ⟨kv', List.mem_cons_of_mem _ hkm, hk1, hk2⟩
        · intro kv' hkv'
          rcases List.mem_cons.mp hkv' with h0 | h0
          · rw [h0]
            omega
          · exact hmin kv' h0
        · intro q1 t1 h1
          simp at h1
          omega

theorem assocStore_length {β : Type} (m : List (FsPath × β)) (p : FsPath) (v : β) :
    (assocStore m p v).length
      = if (assocFind m p).isSome then m.length else m.length + 1 := by
  induction m with
  | nil => simp [assocStore, assocFind]
  | cons kv rest ih =>
    by_cases hk : kv.1 = p
    · simp [assocStore, assocFind, hk]
    · simp only [assocStore, assocFind, if_neg hk, List.length_cons, ih]
      by_cases hf : (assocFind rest p).isSome <;> simp [hf]

theorem assocRemove_length_lt {β : Type} (m : List (FsPath × β)) (p : FsPath)
    (h : (assocFind m p).isSome = true) :
    (assocRemove m p).length < m.length := by
  induction m with
  | nil => simp [assocFind] at h
  | cons kv rest ih =>
    by_cases hk : kv.1 = p
    · have heq : assocRemove (kv :: rest) p = assocRemove rest p := by
        simp [assocRemove, List.filter_cons, hk]
      have h2 : (assocRemove rest p).length ≤ rest.length := List.length_filter_le _ _
      rw [heq]
      simp only [List.length_cons]
      omega
    · have hh : (assocFind rest p).isSome = true := by
        simpa [assocFind, hk] using h
      have : assocRemove (kv :: rest) p = kv :: assocRemove rest p := by
        simp [assocRemove, List.filter_cons, hk]
      rw [this]
      simp only [List.length_cons]
      exact Nat.succ_lt_succ (ih hh)

theorem evict_oldest_len_lt (c : DirectoryCache) (h : c.cache ≠ []) :
    c.evict_oldest.len < c.len := by
  obtain ⟨x, hx⟩ := Option.isSome_iff_exists.mp (oldestKey_isSome c.cache h)
  rcases x with ⟨q, tq⟩
  have hspec := oldestAcc_spec c.cache none q tq (by simpa [oldestKey] using hx)
  rcases hspec.1 with h0 | ⟨kv, hkm, hk1, _⟩
  · simp at h0
  · have hfind : (assocFind c.cache q).isSome = true := by
      rw [← hk1]
      exact assocFind_isSome_of_mem hkm
    have hev : c.evict_oldest = ⟨assocRemove c.cache q, c.ttl⟩ := by
      unfold DirectoryCache.evict_oldest
      rw [hx]
    rw [hev]
    exact assocRemove_length_lt c.cache q hfind

theorem insert_len_le (c : DirectoryCache) (now : Nat) (p : FsPath)
    (es : List CachedEntry) (h : c.len ≤ MAX_CACHE_SIZE) :
    (c.insert now p es).len ≤ MAX_CACHE_SIZE := by
  have hM : MAX_CACHE_SIZE = 100 := rfl
  by_cases hfull : MAX_CACHE_SIZE ≤ c.len
  · have hne : c.cache ≠ [] := by
      intro h0
      have hz : c.len = 0 := by simp [DirectoryCache.len, h0]
      omega
    have hlt := evict_oldest_len_lt c hne
    have hlen : (c.insert now p es).len
        = (assocStore c.evict_oldest.cache p ⟨es, now⟩).length := by
      have hfull2 : MAX_CACHE_SIZE ≤ c.cache.length := hfull
      simp [DirectoryCache.insert, DirectoryCache.len, hfull2]
    have he : c.evict_oldest.cache.length = c.evict_oldest.len := rfl
    have hc : c.cache.length = c.len := rfl
    rw [hlen, assocStore_length]
    split <;> omega
  · have hc : c.cache.length = c.len := rfl
    have hlen : (c.insert now p es).len = (assocStore c.cache p ⟨es, now⟩).length := by
      have hfull2 : ¬ MAX_CACHE_SIZE ≤ c.cache.length := hfull
      simp [DirectoryCache.insert, DirectoryCache.len, hfull2]
    rw [hlen, assocStore_length]
    split <;> omega

theorem fold_insert_len_le (ops : List (Nat × FsPath × List CachedEntry)) :
    (ops.foldl (fun acc op => acc.insert op.1 op.2.1 op.2.2) DirectoryCache.new).len
      ≤ MAX_CACHE_SIZE := by
  have hgen : ∀ (ops : List (Nat × FsPath × List CachedEntry)) (c : DirectoryCache),
      c.len ≤ MAX_CACHE_SIZE →
        (ops.foldl (fun acc op => acc.insert op.1 op.2.1 op.2.2) c).len ≤ MAX_CACHE_SIZE := by
    intro ops
    induction ops with
    | nil =>
      intro c h
      simpa using h
    | cons op rest ih =>
      intro c h
      exact ih _ (insert_len_le _ _ _ _ h)
  exact hgen ops DirectoryCache.new (by decide)

/-- Claim C1 (amended): `insert(path, snapshot)` stores/replaces the snapshot
for `path` stamped with the current time, and an eviction — of one entry
whose capture timestamp is minimal (ties broken arbitrarily, here by
iteration order) — happens if and only if the map already holds at least N
(=100) entries, regardless of whether `path` is already a key; consequently
inserting any sequence of snapshots into an initially empty cache never
leaves more than N keys resident. -/
theorem insert_eviction_spec (c : DirectoryCache) (now : Nat) (p : FsPath)
    (es : List CachedEntry) :
    assocFind (c.insert now p es).cache p = some ⟨es, now⟩
    ∧ (c.len < MAX_CACHE_SIZE → ∀ q, q ≠ p →
        assocFind (c.insert now p es).cache q = assocFind c.cache q)
    ∧ (MAX_CACHE_SIZE ≤ c.len → ∃ q tq, oldestKey c.cache = some (q, tq)
        ∧ (∀ kv ∈ c.cache, tq ≤ kv.2.cached_at)
        ∧ ∀ r, r ≠ p → assocFind (c.insert now p es).cache r
            = if r = q then none else assocFind c.cache r)
    ∧ (c.len ≤ MAX_CACHE_SIZE → (c.insert now p es).len ≤ MAX_CACHE_SIZE)
    ∧ ∀ ops : List (Nat × FsPath × List CachedEntry),
        (ops.foldl (fun acc op => acc.insert op.1 op.2.1 op.2.2)
          DirectoryCache.new).len ≤ MAX_CACHE_SIZE := by
  refine ⟨insert_find_self c now p es, ?_, ?_, fun h => insert_len_le c now p es h,
    fun ops => fold_insert_len_le ops⟩
  · intro hlt q hq
    have hnfull : ¬ MAX_CACHE_SIZE ≤ c.len := by omega
    have hnfull2 : ¬ MAX_CACHE_SIZE ≤ c.cache.length := hnfull
    have hqp : ¬ q = p := hq
    simp [DirectoryCache.insert, hnfull, hnfull2, assocFind_store, hqp]
  · intro hfull
    have hM : MAX_CACHE_SIZE = 100 := rfl
    have hne : c.cache ≠ [] := by
      intro h0
      have hz : c.len = 0 := by simp [DirectoryCache.len, h0]
      omega
    obtain ⟨x, hx⟩ := Option.isSome_iff_exists.mp (oldestKey_isSome c.cache hne)
    rcases x with ⟨q, tq⟩
    have hspec := oldestAcc_spec c.cache none q tq (by simpa [oldestKey] using hx)
    refine ⟨q, tq, hx, hspec.2.1, ?_⟩
    intro r hr
    have hev : c.evict_oldest = ⟨assocRemove c.cache q, c.ttl⟩ := by
      unfold DirectoryCache.evict_oldest
      rw [hx]
    have hfull2 : MAX_CACHE_SIZE ≤ c.cache.length := hfull
    have hrp : ¬ r = p := hr
    simp only [DirectoryCache.insert, DirectoryCache.len, hfull2, if_true, if_pos hfull2, hev]
    rw [assocFind_store]
    rw [if_neg hrp]
    exact assocFind_remove c.cache q r

/-- A cache at capacity for the C1 counterexample: 100 distinct
single-component paths, timestamps 0..99 (the oldest entry is `"0"`). -/
def fullCacheExample : DirectoryCache :=
  ⟨(List.range 100).map (fun i => ([toString i], ⟨[], i⟩)), DEFAULT_TTL⟩

/-- Claim C1 as stated is refuted by the code: with the map at capacity and
`"50"` already a key, `insert("50", …)` must not evict per the claim, yet the
code still evicts the oldest entry `"0"`. -/
theorem insert_eviction_counterexample :
    fullCacheExample.len = MAX_CACHE_SIZE
    ∧ (assocFind fullCacheExample.cache ["50"]).isSome = true
    ∧ (assocFind fullCacheExample.cache ["0"]).isSome = true
    ∧ assocFind ((fullCacheExample.insert 200 ["50"] []).cache) ["0"] = none := by
  refine ⟨rfl, rfl, rfl, ?_⟩
  decide

/-- Witness for C1 (amended) at a concrete small cache. -/
theorem insert_eviction_spec_witness :
    assocFind (DirectoryCache.new.insert 7 ["w"] []).cache ["w"] = some ⟨[], 7⟩
    ∧ assocFind (DirectoryCache.new.insert 7 ["w"] []).cache ["z"]
        = assocFind DirectoryCache.new.cache ["z"] :=
  ⟨(insert_eviction_spec DirectoryCache.new 7 ["w"] []).1,
   (insert_eviction_spec DirectoryCache.new 7 ["w"] []).2.1 (by decide) ["z"] (by decide)⟩

theorem filterMap_guard_eq_filter {α : Type} (p : α → Bool) (l : List α) :
    l.filterMap (fun a => if p a then some a else none) = l.filter p := by
  induction l with
  | nil => rfl
  | cons a rest ih =>
    by_cases h : p a <;> simp [List.filterMap_cons, List.filter_cons, h, ih]

theorem entryPasses_withoutExtensions (o : ScanOptions) (l : List String)
    (hx : o.extensions = some l) (e : CachedEntry) :
    entryPasses o e = (entryPasses o.withoutExtensions e && extRuleOk l e) := by
  unfold entryPasses extRuleOk
  dsimp only [ScanOptions.withoutExtensions]
  by_cases h1 : e.is_hidden && !o.include_hidden
  · simp [h1]
  · by_cases h2 : o.dirs_only && !e.is_dir
    · simp [h1, h2]
    · cases hd : e.is_dir with
      | true => simp [h1, h2, hx, hd]
      | false =>
        cases he : e.extension with
        | some ext => simp [h1, h2, hx, hd, he]
        | none => simp [h1, h2, hx, hd, he]

theorem filter_entries_withoutExtensions (o : ScanOptions) (l : List String)
    (hx : o.extensions = some l) (es : List CachedEntry) :
    filter_entries es o = (filter_entries es o.withoutExtensions).filter (extRuleOk l) := by
  unfold filter_entries
  rw [List.filter_filter]
  apply List.filter_congr
  intro e _
  rw [entryPasses_withoutExtensions o l hx e, Bool.and_comm]

theorem walkAux_extensions_irrelevant (fs : FileSystem) (o : ScanOptions) :
    ∀ (fuel : Nat) (rem : Option Nat) (dir : FsPath),
      walkAux fs o.withoutExtensions fuel rem dir = walkAux fs o fuel rem dir := by
  intro fuel
  induction fuel with
  | zero =>
    intro rem dir
    rfl
  | succ n ih =>
    intro rem dir
    unfold walkAux
    by_cases hr : rem = some 0
    · simp [hr]
    · simp only [hr, if_false]
      congr 1
      funext c
      rw [ih]
      dsimp only [ScanOptions.withoutExtensions]

theorem mkScanEntry_withoutExtensions (fs : FileSystem) (o : ScanOptions)
    (l : List String) (hx : o.extensions = some l) (path : FsPath) :
    mkScanEntry fs o path
      = (mkScanEntry fs o.withoutExtensions path).bind
          (fun e => if extRuleOk l e then some e else none) := by
  unfold mkScanEntry
  cases hl : path.getLast? with
  | none => rfl
  | some name =>
    dsimp only [ScanOptions.withoutExtensions]
    by_cases h1 : hiddenName name && !o.include_hidden
    · simp [h1]
    · by_cases h2 : o.dirs_only && !fs.isDirPath path
      · simp [h1, h2]
      · cases hd : fs.isDirPath path with
        | true => simp [h1, h2, hx, hd, extRuleOk]
        | false =>
          have hdo : o.dirs_only = false := by
            rw [hd] at h2
            simpa using h2
          cases he : rustExtension name with
          | some ext =>
            by_cases hc : l.contains ext <;>
              simp [h1, h2, hdo, hx, hd, he, extRuleOk, hc]
          | none => simp [h1, h2, hdo, hx, hd, he, extRuleOk]

theorem scan_internal_withoutExtensions (fs : FileSystem) (dir : FsPath)
    (o : ScanOptions) (l : List String) (hx : o.extensions = some l) :
    scan_directory_internal fs dir o
      = (scan_directory_internal fs dir o.withoutExtensions).filter (extRuleOk l) := by
  unfold scan_directory_internal
  by_cases hd : (!fs.pathExists dir || !fs.isDirPath dir) = true
  · simp [hd]
  · simp only [hd, Bool.false_eq_true, if_false]
    have hw : walkPaths fs o.withoutExtensions dir = walkPaths fs o dir := by
      unfold walkPaths
      dsimp only [ScanOptions.withoutExtensions]
      exact walkAux_extensions_irrelevant fs o _ _ _
    rw [hw]
    generalize walkPaths fs o dir = ws
    induction ws with
    | nil => rfl
    | cons a rest ih2 =>
      simp only [List.filterMap_cons]
      rw [mkScanEntry_withoutExtensions fs o l hx a]
      cases hm : mkScanEntry fs o.withoutExtensions a with
      | none => simpa using ih2
      | some e =>
        by_cases hp : extRuleOk l e
        · simp [hp, List.filter_cons, ih2]
        · simp [hp, List.filter_cons, ih2]

/-- Claim C8: under any policy whose extension allow-list is set, both the
direct filtered walk and the post-cache filter factor as "the same scan with
the allow-list cleared, then the extension rule" — so exactly the
non-directory entries whose extension is absent or not in the list are
excluded by the rule, a directory is never excluded by it regardless of its
name, and under the source-file preset `a.cpp` and `a.hpp` pass while
`a.txt` does not. -/
theorem extension_filter_exact :
    (∀ (o : ScanOptions) (l : List String), o.extensions = some l →
      (∀ es : List CachedEntry,
        filter_entries es o = (filter_entries es o.withoutExtensions).filter (extRuleOk l))
      ∧ (∀ (fs : FileSystem) (dir : FsPath),
          scan_directory_internal fs dir o
            = (scan_directory_internal fs dir o.withoutExtensions).filter (extRuleOk l))
      ∧ ∀ (es : List CachedEntry) (e : CachedEntry), e.is_dir = true →
          (e ∈ filter_entries es o ↔ e ∈ filter_entries es o.withoutExtensions))
    ∧ filter_entries
        [⟨"a.cpp", false, false, false, some "cpp"⟩,
         ⟨"a.hpp", false, false, false, some "hpp"⟩,
         ⟨"a.txt", false, false, false, some "txt"⟩,
         ⟨"w.txt", true, false, false, some "txt"⟩] ScanOptions.for_source_files
      = [⟨"a.cpp", false, false, false, some "cpp"⟩,
         ⟨"a.hpp", false, false, false, some "hpp"⟩,
         ⟨"w.txt", true, false, false, some "txt"⟩]
    ∧ scan_directory_internal
        ⟨[(["d"], FileKind.dir), (["d", "a.cpp"], FileKind.file),
          (["d", "a.hpp"], FileKind.file), (["d", "a.txt"], FileKind.file)], []⟩
        ["d"] ScanOptions.for_source_files
      = [⟨"a.cpp", false, false, false, some "cpp"⟩,
         ⟨"a.hpp", false, false, false, some "hpp"⟩] := by
  refine ⟨?_, by decide, by decide⟩
  intro o l hx
  refine ⟨filter_entries_withoutExtensions o l hx,
    fun fs dir => scan_internal_withoutExtensions fs dir o l hx, ?_⟩
  intro es e hd
  rw [filter_entries_withoutExtensions o l hx es, List.mem_filter]
  have : extRuleOk l e = true := by
    simp [extRuleOk, hd]
  simp [this]

/-- Witness for C8 at the source-file preset on a concrete entry list. -/
theorem extension_filter_exact_witness :
    filter_entries [⟨"a.txt", false, false, false, some "txt"⟩] ScanOptions.for_source_files
      = (filter_entries [⟨"a.txt", false, false, false, some "txt"⟩]
          ScanOptions.for_source_files.withoutExtensions).filter
          (extRuleOk ["c", "cc", "cpp", "cxx", "c++", "h", "hh", "hpp", "hxx", "h++",
            "m", "mm", "cu", "cuh", "asm", "s", "f", "f90", "f95", "for", "rc"]) :=
  (extension_filter_exact.1 ScanOptions.for_source_files
    ["c", "cc", "cpp", "cxx", "c++", "h", "hh", "hpp", "hxx", "h++",
     "m", "mm", "cu", "cuh", "asm", "s", "f", "f90", "f95", "for", "rc"] rfl).1
    [⟨"a.txt", false, false, false, some "txt"⟩]
